import Mathlib

/-!
Verification development for the ennovateX multimodal platform.

Part I models the `MultimodalSection` demo component of the web UI
(`getModalityCount`, `getUsedModalities`, `handleProcess`), translated
from the TypeScript source.

Part II models the multimodal embedding-fusion engine (normalizer,
fusion strategies, engine pipeline, result cache).  The engine's
implementation files (`src/fusion/`, `src/models/`) are not part of the
checked-in sources — only the documentation declares them — so those
definitions are modelled from the specification, as marked on each one.
-/

/- ------------------------------------------------------------------ -/
/- Part I: the MultimodalSection demo component (from the TSX source) -/
/- ------------------------------------------------------------------ -/

/-- Mirror of the `AIResult` record produced by `MultimodalSection`
(flattening the nested `data` object). -/
structure AIResult where
  type : String
  confidence : ℚ
  summary : String
  modalities : List String
  textResult : Option String
  imageResult : Option String
  videoResult : Option String
deriving DecidableEq, Repr

/-- The component state of `MultimodalSection`: the five `useState` hooks
`textInput`, `imageFile`, `videoFile`, `result`, `loading`.  Files are
identified by name. -/
structure MMState where
  textInput : String
  imageFile : Option String
  videoFile : Option String
  result : Option AIResult
  loading : Bool
deriving DecidableEq, Repr

/-- Whitespace trimming as in JavaScript's `String.prototype.trim`,
written over the character list. -/
def trimStr (s : String) : String :=
  ⟨((s.data.dropWhile Char.isWhitespace).reverse.dropWhile
      Char.isWhitespace).reverse⟩

/-- Truthiness of `textInput.trim()` in the component's guards. -/
def textPresent (s : MMState) : Prop := trimStr s.textInput ≠ ""

instance (s : MMState) : Decidable (textPresent s) := by
  unfold textPresent; infer_instance

/-- `getModalityCount` from `MultimodalSection`: counts the present
inputs among non-blank text, image file, video file. -/
def getModalityCount (s : MMState) : ℕ :=
  (if textPresent s then 1 else 0) +
    (if s.imageFile.isSome then 1 else 0) +
    (if s.videoFile.isSome then 1 else 0)

/-- `getUsedModalities` from `MultimodalSection`: pushes the names
`Text`, `Image`, `Video` for each present input, in that order. -/
def getUsedModalities (s : MMState) : List String :=
  (if textPresent s then ["Text"] else []) ++
    (if s.imageFile.isSome then ["Image"] else []) ++
    (if s.videoFile.isSome then ["Video"] else [])

/-- The form data posted to `/analyze/multimodal/`: the fields appended
by `handleProcess` (each only when present). -/
structure MultimodalForm where
  text : Option String
  image : Option String
  video : Option String
deriving DecidableEq, Repr

/-- Outcome of the `fetch` call inside `handleProcess`: HTTP success
with a parsed body, a non-ok response, or a thrown error. -/
inductive FetchOutcome
  | ok (res : AIResult)
  | fail
  | exn
deriving Repr

/-- The fallback mock result built in the non-ok and catch branches of
`handleProcess`. -/
def mockResult (s : MMState) : AIResult :=
  { type := "Multimodal Analysis"
    confidence := 89 / 100
    summary := "Combined analysis reveals strong correlation between input modalities. The AI has successfully processed and integrated multiple data types."
    modalities := getUsedModalities s
    textResult := if textPresent s then some "Text sentiment: Positive (0.87)" else none
    imageResult := if s.imageFile.isSome then some "Image contains: Person, outdoor scene (0.92)" else none
    videoResult := if s.videoFile.isSome then some "Video analysis: Motion detected, 2 objects tracked (0.88)" else none }

/-- `handleProcess` from `MultimodalSection`, as a state transformer that
also reports the network requests it issued.  The guard
`if (getModalityCount() < 2) return;` is the first statement; otherwise
the form is posted and `result` is set from the response (or from the
mock fallback), with `loading` ending `false`. -/
def handleProcess (outcome : FetchOutcome) (s : MMState) :
    MMState × List MultimodalForm :=
  if getModalityCount s < 2 then (s, [])
  else
    let form : MultimodalForm :=
      { text := if textPresent s then some s.textInput else none
        image := s.imageFile
        video := s.videoFile }
    let res : AIResult :=
      match outcome with
      | .ok r => r
      | .fail => mockResult s
      | .exn => mockResult s
    ({ s with result := some res, loading := false }, [form])

/- ------------------------------------------------------------------ -/
/- Part II: the embedding-fusion engine, modelled from the spec       -/
/- ------------------------------------------------------------------ -/

/-- Modelled from the spec: the fixed enumerated set of modality tags
(the engine sources `src/fusion/`, `src/models/` are not in the
checked-in tree). -/
inductive Modality
  | text
  | image
  | audio
deriving DecidableEq, Repr

/-- Modelled from the spec: the fixed, registered priority ordering of
modalities (text, image, audio). -/
def modalityOrder : List Modality := [.text, .image, .audio]

/-- Modelled from the spec: the error taxonomy of the fusion engine. -/
inductive FusionError
  | validationError
  | unknownStrategyError
  | dimensionMismatchError
  | degenerateEmbeddingError
deriving DecidableEq, Repr

/-- A raw floating-point value as seen by the normalizer: either a
finite real or a non-finite value (NaN or an infinity). -/
inductive RawVal
  | fin (x : ℝ)
  | nonfinite

/-- Whether a raw value is finite. -/
def RawVal.isFin : RawVal → Bool
  | .fin _ => true
  | .nonfinite => false

/-- The finite components of a raw vector (total on all-finite input). -/
def finPart : List RawVal → List ℝ
  | [] => []
  | .fin x :: rest => x :: finPart rest
  | .nonfinite :: rest => finPart rest

/-- Real vectors, the carrier of normalized embeddings. -/
abbrev RVec := List ℝ

/-- The all-zero vector of a given dimension. -/
def vecZero (n : ℕ) : RVec := List.replicate n 0

/-- Componentwise vector addition (truncating, as `zipWith`). -/
def vecAdd (a b : RVec) : RVec := List.zipWith (· + ·) a b

/-- Scalar multiple of a vector. -/
def vecScale (c : ℝ) (v : RVec) : RVec := v.map (fun x => c * x)

/-- Sum of squares of a vector's entries. -/
def sumSq (v : RVec) : ℝ := (v.map (fun x => x * x)).sum

/-- The L2 norm of a vector. -/
noncomputable def l2norm (v : RVec) : ℝ := Real.sqrt (sumSq v)

/-- Modelled from the spec: `EmbeddingNormalizer.normalize` in the
default mode (the normalizer source is not in the checked-in tree).
A non-finite or all-zero vector fails with `DegenerateEmbeddingError`;
otherwise the vector is rescaled to unit L2 length. -/
noncomputable def normalizeEmbedding (v : List RawVal) : Except FusionError RVec :=
  if v.all RawVal.isFin then
    if sumSq (finPart v) = 0 then .error .degenerateEmbeddingError
    else .ok ((finPart v).map (fun x => x / l2norm (finPart v)))
  else .error .degenerateEmbeddingError

/-- A strategy input item: modality tag, normalized vector, weight. -/
abbrev FusionItem := Modality × RVec × ℝ

/-- The vector component of a strategy input item. -/
def itemVec (it : FusionItem) : RVec := it.2.1

/-- The weight component of a strategy input item. -/
def itemWeight (it : FusionItem) : ℝ := it.2.2

/-- Sum of the supplied weights of a strategy input list. -/
def totalWeight (items : List FusionItem) : ℝ :=
  (items.map itemWeight).sum

/-- Sum of weight-scaled vectors over a strategy input list, in
dimension `d`. -/
def weightedCombo (d : ℕ) (items : List FusionItem) : RVec :=
  items.foldr (fun it acc => vecAdd (vecScale (itemWeight it) (itemVec it)) acc)
    (vecZero d)

/-- Modelled from the spec: `weighted_average_fusion` (declared in the
documentation's strategy registry; its source is not in the checked-in
tree).  Requires all present embeddings to share one dimension,
renormalizes the supplied weights to sum to 1, and returns the weighted
sum. -/
noncomputable def weighted_average_fusion (items : List FusionItem) :
    Except FusionError RVec :=
  match items with
  | [] => .error .validationError
  | it0 :: _ =>
    if ∀ it ∈ items, (itemVec it).length = (itemVec it0).length then
      .ok (weightedCombo (itemVec it0).length
        (items.map (fun it => (it.1, itemVec it, itemWeight it / totalWeight items))))
    else .error .dimensionMismatchError

/-- Modelled from the spec: the engine configuration injected at
construction (registry of expected per-modality dimensions, padding
flag for `Concatenation`, attention temperature). -/
structure EngineConfig where
  expectedDim : Modality → ℕ
  padMissing : Bool
  attentionTemp : ℝ

/-- Modelled from the spec: `concatenate_fusion` (declared in the
documentation's strategy registry; its source is not in the checked-in
tree).  Concatenates the per-modality blocks over the full registered
modality ordering; a modality absent from the input contributes a zero
vector of its configured expected dimension when padding is enabled,
and nothing otherwise. -/
def concatenate_fusion (cfg : EngineConfig) (items : List FusionItem) :
    Except FusionError RVec :=
  .ok (modalityOrder.map (fun m =>
    match items.find? (fun it => decide (it.1 = m)) with
    | some it => itemVec it
    | none => if cfg.padMissing then vecZero (cfg.expectedDim m) else [])).flatten

/-- Dot product of two vectors. -/
def dotProd (a b : RVec) : ℝ := (List.zipWith (· * ·) a b).sum

/-- Modelled from the spec: per-modality relevance scores for
`AttentionFusion` — the average cosine similarity (dot product on
normalized vectors) of each vector to the other present vectors. -/
noncomputable def attentionScores (vs : List RVec) : List ℝ :=
  vs.map (fun v => ((vs.map (fun u => dotProd v u)).sum - dotProd v v) /
    ((vs.length : ℝ) - 1))

/-- Temperature-scaled softmax over a list of scores. -/
noncomputable def softmax (temp : ℝ) (ss : List ℝ) : List ℝ :=
  (ss.map (fun x => Real.exp (x / temp))).map
    (fun e => e / (ss.map (fun x => Real.exp (x / temp))).sum)

/-- Modelled from the spec: `attention_fusion` (declared in the
documentation's strategy registry; its source is not in the checked-in
tree).  Computes deterministic relevance scores, converts them to
weights by temperature-scaled softmax, and applies the WeightedAverage
combination with those weights. -/
noncomputable def attention_fusion (temp : ℝ) (items : List FusionItem) :
    Except FusionError RVec :=
  weighted_average_fusion
    (List.zipWith (fun (it : FusionItem) w => (it.1, itemVec it, w)) items
      (softmax temp (attentionScores (items.map itemVec))))

/-- Modelled from the spec: a fusion request — a mapping from modality
to raw embedding vector, a strategy tag, and an optional per-modality
weight mapping. -/
structure FusionRequest where
  embeddings : Modality → Option (List RawVal)
  strategy : String
  weights : Option (Modality → ℝ)

/-- Modelled from the spec: the modalities present in a request, in
the registered priority ordering. -/
def present (r : FusionRequest) : List Modality :=
  modalityOrder.filter (fun m => (r.embeddings m).isSome)

/-- Modelled from the spec: the weight the engine attaches to a
modality — the supplied weight, or the uniform default when no mapping
was supplied. -/
def getWeight (r : FusionRequest) (m : Modality) : ℝ :=
  match r.weights with
  | none => 1
  | some w => w m

/-- Modelled from the spec: well-formedness of the optional weight
mapping — if supplied, every weight of a present modality is
non-negative and at least one is positive. -/
def weightsWellFormed (r : FusionRequest) : Prop :=
  match r.weights with
  | none => True
  | some w => (∀ m ∈ present r, 0 ≤ w m) ∧ (∃ m ∈ present r, 0 < w m)

/-- Modelled from the spec: `FUSION_STRATEGIES`, the registry of
strategy tags (declared in the documentation; the registry source is
not in the checked-in tree). -/
def registeredStrategies : List String :=
  ["concatenate", "weighted_average", "attention"]

/-- Modelled from the spec: the Normalize step of the engine pipeline
— normalize the embeddings of the given modalities of a request,
propagating the first normalizer error. -/
noncomputable def normalizePresent (r : FusionRequest) :
    List Modality → Except FusionError (List (Modality × RVec))
  | [] => .ok []
  | m :: ms =>
    match r.embeddings m with
    | none => normalizePresent r ms
    | some raw => do
      let nv ← normalizeEmbedding raw
      let rest ← normalizePresent r ms
      .ok ((m, nv) :: rest)

/-- Modelled from the spec: the strategy input assembly — attach the
request's per-modality weights to the normalized vectors. -/
def attachWeights (r : FusionRequest) (l : List (Modality × RVec)) :
    List FusionItem :=
  l.map (fun p => (p.1, p.2, getWeight r p.1))

/-- Modelled from the spec: engine dispatch to the registered strategy
named by the tag. -/
noncomputable def dispatchStrategy (cfg : EngineConfig) (tag : String)
    (items : List FusionItem) : Except FusionError RVec :=
  if tag = "concatenate" then concatenate_fusion cfg items
  else if tag = "weighted_average" then weighted_average_fusion items
  else if tag = "attention" then attention_fusion cfg.attentionTemp items
  else .error .unknownStrategyError

open Classical in
/-- Modelled from the spec: the core pipeline of `FusionEngine.fuse` —
Validate, Normalize, Fuse — producing the fused vector. -/
noncomputable def fuseCore (cfg : EngineConfig) (r : FusionRequest) :
    Except FusionError RVec :=
  if present r = [] then .error .validationError
  else if ¬ weightsWellFormed r then .error .validationError
  else if r.strategy ∉ registeredStrategies then .error .unknownStrategyError
  else do
    let nvs ← normalizePresent r (present r)
    dispatchStrategy cfg r.strategy (attachWeights r nvs)

/-- Modelled from the spec: the `FusedResult` record (fused vector,
contributing modalities, strategy tag, output dimension, creation
timestamp). -/
structure FusedResult where
  vector : RVec
  modalities : List Modality
  strategy : String
  dimension : ℕ
  timestamp : ℕ

/-- Modelled from the spec: `FusionEngine.fuse` — the core pipeline
followed by the Package step, stamping the supplied creation time. -/
noncomputable def fuse (cfg : EngineConfig) (now : ℕ) (r : FusionRequest) :
    Except FusionError FusedResult :=
  (fuseCore cfg r).map (fun out =>
    { vector := out
      modalities := present r
      strategy := r.strategy
      dimension := out.length
      timestamp := now })

/-- A structurally valid request: non-empty, well-formed weights,
registered strategy tag. -/
def ValidRequest (r : FusionRequest) : Prop :=
  present r ≠ [] ∧ weightsWellFormed r ∧ r.strategy ∈ registeredStrategies

/-- Modelled from the spec: the cache key content — the present
modality tags in their sorted (registry) order, the raw embedding
vector of each, the strategy tag, and the normalized weight values. -/
abbrev CacheKey := List Modality × List (List RawVal) × String × List ℝ

/-- The normalized weight values of a request: each present modality's
weight divided by the sum of the present modalities' weights. -/
noncomputable def normWeightVals (r : FusionRequest) : List ℝ :=
  (present r).map
    (fun m => getWeight r m / ((present r).map (getWeight r)).sum)

/-- Modelled from the spec: the stable key derived from a request's
content (`ResultCache` and `cached_inference` are declared in the
documentation; their sources are not in the checked-in tree). -/
noncomputable def requestKey (r : FusionRequest) : CacheKey :=
  (present r, (present r).map (fun m => (r.embeddings m).getD []),
    r.strategy, normWeightVals r)

/-- The cache contents: entries from most- to least-recently used. -/
abbrev CacheEntries := List (CacheKey × FusedResult)

open Classical in
/-- Modelled from the spec: `ResultCache.get` — look a key up among
the cache entries. -/
noncomputable def lookupEntry (k : CacheKey) :
    CacheEntries → Option FusedResult
  | [] => none
  | e :: es => if e.1 = k then some e.2 else lookupEntry k es

open Classical in
/-- Modelled from the spec: the cache's key removal — remove every
entry carrying the given key. -/
noncomputable def eraseKey (k : CacheKey) : CacheEntries → CacheEntries
  | [] => []
  | e :: es => if e.1 = k then eraseKey k es else e :: eraseKey k es

/-- Modelled from the spec: `ResultCache.put` — insert as
most-recently-used, bounded capacity with least-recently-used
eviction. -/
noncomputable def putEntry (cap : ℕ) (k : CacheKey) (res : FusedResult)
    (es : CacheEntries) : CacheEntries :=
  ((k, res) :: eraseKey k es).take cap

open Classical in
/-- Modelled from the spec: `fuse` with the result cache enabled (the
`cached_inference` path).  Validation precedes the lookup; a hit
returns the memoized result and refreshes its recency; a computed
success is written back; a failed call never mutates the cache. -/
noncomputable def fuseCached (cfg : EngineConfig) (cap : ℕ) (now : ℕ)
    (c : CacheEntries) (r : FusionRequest) :
    Except FusionError FusedResult × CacheEntries :=
  if present r = [] then (.error .validationError, c)
  else if ¬ weightsWellFormed r then (.error .validationError, c)
  else if r.strategy ∉ registeredStrategies then
    (.error .unknownStrategyError, c)
  else
    match lookupEntry (requestKey r) c with
    | some res => (.ok res, (requestKey r, res) :: eraseKey (requestKey r) c)
    | none =>
      match fuse cfg now r with
      | .ok res => (.ok res, putEntry cap (requestKey r) res c)
      | .error e => (.error e, c)

/-- Consistency of a cache: every entry's key determines the fused
vector of every valid request hashing to it. -/
def CacheConsistent (cfg : EngineConfig) (c : CacheEntries) : Prop :=
  ∀ e ∈ c, ∀ r : FusionRequest, ValidRequest r → requestKey r = e.1 →
    fuseCore cfg r = .ok e.2.vector

/-- A small concrete configuration used in concrete instances. -/
noncomputable def sampleConfig : EngineConfig :=
  { expectedDim := fun _ => 2, padMissing := true, attentionTemp := 1 }

/-- A concrete request with an empty modality mapping and an
unregistered strategy tag. -/
def emptyUnknownRequest : FusionRequest :=
  { embeddings := fun _ => none, strategy := "nope", weights := none }

/-- A concrete request carrying one text embedding. -/
noncomputable def oneTextRequest : FusionRequest :=
  { embeddings := fun m =>
      match m with
      | .text => some [.fin 3, .fin 4]
      | _ => none
    strategy := "concatenate"
    weights := none }

/- ------------------------------------------------------------------ -/
/- Theorems                                                           -/
/- ------------------------------------------------------------------ -/

/-- C9: in the `MultimodalSection` demo component, whenever fewer than
two of the three inputs (non-blank text, image file, video file) are
present, `handleProcess` returns immediately — same state, no network
request — and a request is issued only when `getModalityCount()` is at
least 2. -/
theorem handleProcess_requires_two_modalities (outcome : FetchOutcome)
    (s : MMState) :
    (getModalityCount s < 2 → handleProcess outcome s = (s, [])) ∧
    ((handleProcess outcome s).2 ≠ [] → 2 ≤ getModalityCount s) := by
  constructor
  · intro h
    simp [handleProcess, h]
  · intro h
    by_contra hlt
    push_neg at hlt
    simp [handleProcess, hlt] at h

/-- Witness for C9: a state with only text present is returned
unchanged with no request issued. -/
theorem handleProcess_requires_two_modalities_witness :
    handleProcess .fail ⟨"x", none, none, none, false⟩ =
      (⟨"x", none, none, none, false⟩, []) :=
  (handleProcess_requires_two_modalities .fail _).1 (by decide)

/-- C10: `getUsedModalities` returns exactly the names of the present
inputs, as a sublist of the fixed order `Text`, `Image`, `Video`, and
its length always equals `getModalityCount`. -/
theorem getUsedModalities_matches_count (s : MMState) :
    ("Text" ∈ getUsedModalities s ↔ textPresent s) ∧
    ("Image" ∈ getUsedModalities s ↔ s.imageFile.isSome = true) ∧
    ("Video" ∈ getUsedModalities s ↔ s.videoFile.isSome = true) ∧
    List.Sublist (getUsedModalities s) ["Text", "Image", "Video"] ∧
    (getUsedModalities s).length = getModalityCount s := by
  unfold getUsedModalities getModalityCount
  by_cases ht : textPresent s <;>
    by_cases hi : s.imageFile.isSome <;>
      by_cases hv : s.videoFile.isSome <;>
        simp [ht, hi, hv]

/-- The length of a componentwise sum. -/
theorem vecAdd_length (a b : RVec) :
    (vecAdd a b).length = min a.length b.length :=
  List.length_zipWith ..

/-- Scaling preserves length. -/
theorem vecScale_length (c : ℝ) (v : RVec) :
    (vecScale c v).length = v.length :=
  List.length_map ..

/-- The zero vector has the requested dimension. -/
theorem vecZero_length (n : ℕ) : (vecZero n).length = n :=
  List.length_replicate ..

/-- Adding the zero vector of matching dimension is the identity. -/
theorem vecAdd_zero_right (v : RVec) : vecAdd v (vecZero v.length) = v := by
  induction v with
  | nil => rfl
  | cons x xs ih =>
    simp only [vecAdd, vecZero, List.length_cons, List.replicate_succ,
      List.zipWith_cons_cons, add_zero] at ih ⊢
    rw [ih]

/-- Two scalings of one vector add to the combined scaling. -/
theorem vecAdd_scale_scale (a b : ℝ) (v : RVec) :
    vecAdd (vecScale a v) (vecScale b v) = vecScale (a + b) v := by
  induction v with
  | nil => rfl
  | cons x xs ih =>
    simp only [vecScale, vecAdd, List.map_cons, List.zipWith_cons_cons] at ih ⊢
    rw [ih, add_mul]

/-- Scaling by one is the identity. -/
theorem vecScale_one (v : RVec) : vecScale 1 v = v := by
  simp [vecScale]

/-- A weighted combination of vectors of dimension `d` has
dimension `d`. -/
theorem weightedCombo_length (d : ℕ) (items : List FusionItem)
    (h : ∀ it ∈ items, (itemVec it).length = d) :
    (weightedCombo d items).length = d := by
  induction items with
  | nil => simp [weightedCombo, vecZero]
  | cons it rest ih =>
    have hit : (itemVec it).length = d := h it (List.mem_cons_self it rest)
    have hrest : (weightedCombo d rest).length = d :=
      ih fun x hx => h x (List.mem_cons_of_mem it hx)
    show (vecAdd (vecScale (itemWeight it) (itemVec it))
      (weightedCombo d rest)).length = d
    rw [vecAdd_length, vecScale_length, hit, hrest, min_self]

/-- C5: whenever all present embeddings share one dimension `d`, the
WeightedAverage strategy succeeds with a fused vector of dimension
exactly `d`. -/
theorem weighted_average_output_dim (items : List FusionItem) (d : ℕ)
    (hne : items ≠ []) (hd : ∀ it ∈ items, (itemVec it).length = d) :
    ∃ out, weighted_average_fusion items = .ok out ∧ out.length = d := by
  cases items with
  | nil => exact absurd rfl hne
  | cons it0 rest =>
    have h0 : (itemVec it0).length = d := hd it0 (List.mem_cons_self it0 rest)
    have hcond : ∀ it ∈ it0 :: rest,
        (itemVec it).length = (itemVec it0).length :=
      fun it hit => (hd it hit).trans h0.symm
    refine ⟨weightedCombo (itemVec it0).length
      ((it0 :: rest).map (fun it =>
        (it.1, itemVec it, itemWeight it / totalWeight (it0 :: rest)))),
      ?_, ?_⟩
    · simp only [weighted_average_fusion]
      rw [if_pos hcond]
    · have hlen : ∀ it' ∈ (it0 :: rest).map (fun it =>
          (it.1, itemVec it, itemWeight it / totalWeight (it0 :: rest))),
          (itemVec it').length = (itemVec it0).length := by
        intro it' hit'
        rcases List.mem_map.mp hit' with ⟨it, hit, rfl⟩
        exact hcond it hit
      exact (weightedCombo_length _ _ hlen).trans h0

/-- Witness for C5: two 2-dimensional items fuse to a 2-dimensional
output. -/
theorem weighted_average_output_dim_witness :
    ∃ out, weighted_average_fusion
      [(.text, [1, 0], 1), (.image, [0, 1], 1)] = .ok out ∧
      out.length = 2 :=
  weighted_average_output_dim _ 2 (by simp)
    (by
      intro it hit
      rcases List.mem_cons.mp hit with h | h
      · rw [h]; rfl
      · rcases List.mem_cons.mp h with h2 | h2
        · rw [h2]; rfl
        · cases h2)

/-- C6: WeightedAverage fusion of two modalities carrying one identical
vector `v` with equal positive weights returns `v` unchanged. -/
theorem weighted_average_idempotent (m₁ m₂ : Modality) (v : RVec) (w : ℝ)
    (hw : 0 < w) :
    weighted_average_fusion [(m₁, v, w), (m₂, v, w)] = .ok v := by
  have hww : w + w ≠ 0 := by positivity
  have hcond : ∀ it ∈ ([(m₁, v, w), (m₂, v, w)] : List FusionItem),
      (itemVec it).length = (itemVec ((m₁, v, w) : FusionItem)).length := by
    intro it hit
    rcases List.mem_cons.mp hit with h | h
    · rw [h]
    · rcases List.mem_cons.mp h with h2 | h2
      · rw [h2]; rfl
      · cases h2
  simp only [weighted_average_fusion]
  rw [if_pos hcond]
  have hT : totalWeight [(m₁, v, w), (m₂, v, w)] = w + w := by
    simp [totalWeight, itemWeight]
  congr 1
  show vecAdd (vecScale (w / totalWeight [(m₁, v, w), (m₂, v, w)]) v)
      (vecAdd (vecScale (w / totalWeight [(m₁, v, w), (m₂, v, w)]) v)
        (vecZero v.length)) = v
  rw [hT]
  have hlen : v.length = (vecScale (w / (w + w)) v).length :=
    (vecScale_length _ _).symm
  rw [hlen, vecAdd_zero_right, vecAdd_scale_scale, div_add_div_same,
    div_self hww, vecScale_one]

/-- Witness for C6: equal halves of the unit vector average back to
itself. -/
theorem weighted_average_idempotent_witness :
    weighted_average_fusion
      [(.text, [1, 0], 1), (.audio, [1, 0], 1)] = .ok [1, 0] :=
  weighted_average_idempotent .text .audio [1, 0] 1 one_pos

/-- Scaling every weight by one constant scales the weight total. -/
theorem totalWeight_map_scale (c : ℝ) (items : List FusionItem) :
    totalWeight (items.map (fun it => (it.1, itemVec it, c * itemWeight it))) =
      c * totalWeight items := by
  unfold totalWeight
  rw [List.map_map]
  have h1 : (itemWeight ∘ fun it : FusionItem =>
      (it.1, itemVec it, c * itemWeight it)) =
      fun it : FusionItem => c * itemWeight it := rfl
  rw [h1, List.sum_map_mul_left]

/-- Renormalized strategy inputs, as a zip of the tag-vector pairs
with the renormalized weights. -/
theorem renorm_eq_zipWith (l : List FusionItem) :
    l.map (fun it => (it.1, itemVec it, itemWeight it / totalWeight l)) =
    List.zipWith (fun (p : Modality × RVec) (w : ℝ) => (p.1, p.2, w))
      (l.map (fun it => (it.1, itemVec it)))
      (l.map (fun it => itemWeight it / totalWeight l)) := by
  rw [List.zipWith_map, List.zipWith_same]

/-- The WeightedAverage output depends only on the tag-vector pairs and
the renormalized weights. -/
theorem weighted_average_congr (items items2 : List FusionItem)
    (hlen : items.map (fun it => (it.1, itemVec it)) =
      items2.map (fun it => (it.1, itemVec it)))
    (hw : items.map (fun it => itemWeight it / totalWeight items) =
      items2.map (fun it => itemWeight it / totalWeight items2)) :
    weighted_average_fusion items = weighted_average_fusion items2 := by
  cases items with
  | nil =>
    cases items2 with
    | nil => rfl
    | cons b bs => simp at hlen
  | cons a as =>
    cases items2 with
    | nil => simp at hlen
    | cons b bs =>
      have hhead : ((a.1, itemVec a) : Modality × RVec) = (b.1, itemVec b) := by
        have h2 := hlen
        simp only [List.map_cons, List.cons.injEq] at h2
        exact h2.1
      have hveq : itemVec a = itemVec b := congrArg Prod.snd hhead
      have hiff : ∀ n : ℕ, (∀ it ∈ a :: as, (itemVec it).length = n) ↔
          (∀ it ∈ b :: bs, (itemVec it).length = n) := by
        intro n
        constructor
        · intro h it hit
          have hmem : ((it.1, itemVec it) : Modality × RVec) ∈
              (b :: bs).map (fun it => (it.1, itemVec it)) :=
            List.mem_map_of_mem _ hit
          rw [← hlen] at hmem
          rcases List.mem_map.mp hmem with ⟨x, hx, hfx⟩
          have hxv : itemVec x = itemVec it := congrArg Prod.snd hfx
          rw [← hxv]
          exact h x hx
        · intro h it hit
          have hmem : ((it.1, itemVec it) : Modality × RVec) ∈
              (a :: as).map (fun it => (it.1, itemVec it)) :=
            List.mem_map_of_mem _ hit
          rw [hlen] at hmem
          rcases List.mem_map.mp hmem with ⟨x, hx, hfx⟩
          have hxv : itemVec x = itemVec it := congrArg Prod.snd hfx
          rw [← hxv]
          exact h x hx
      by_cases hcnd : ∀ it ∈ a :: as, (itemVec it).length = (itemVec a).length
      · have hcnd2 : ∀ it ∈ b :: bs, (itemVec it).length = (itemVec b).length := by
          rw [← hveq]
          exact (hiff _).mp hcnd
        simp only [weighted_average_fusion]
        rw [if_pos hcnd, if_pos hcnd2]
        congr 1
        rw [congrArg List.length hveq]
        rw [renorm_eq_zipWith (a :: as), renorm_eq_zipWith (b :: bs), hlen, hw]
      · have hcnd2 : ¬ ∀ it ∈ b :: bs, (itemVec it).length = (itemVec b).length := by
          rw [← hveq]
          exact fun h => hcnd ((hiff _).mpr h)
        simp only [weighted_average_fusion]
        rw [if_neg hcnd, if_neg hcnd2]

/-- C1: for a non-empty input of same-dimension vectors with supplied
finite non-negative weights, at least one positive, the WeightedAverage
output is the sum over modalities of (weight divided by the weight
total) times the vector; and scaling every supplied weight by one
positive constant leaves the output unchanged. -/
theorem weighted_average_renormalizes (items : List FusionItem) (d : ℕ)
    (hne : items ≠ []) (hd : ∀ it ∈ items, (itemVec it).length = d)
    (hw : ∀ it ∈ items, 0 ≤ itemWeight it)
    (hpos : ∃ it ∈ items, 0 < itemWeight it) :
    weighted_average_fusion items =
      .ok (weightedCombo d (items.map (fun it =>
        (it.1, itemVec it, itemWeight it / totalWeight items)))) ∧
    ∀ c : ℝ, 0 < c →
      weighted_average_fusion (items.map (fun it =>
        (it.1, itemVec it, c * itemWeight it))) =
        weighted_average_fusion items := by
  constructor
  · cases items with
    | nil => exact absurd rfl hne
    | cons it0 rest =>
      have h0 : (itemVec it0).length = d :=
        hd it0 (List.mem_cons_self it0 rest)
      have hcond : ∀ it ∈ it0 :: rest,
          (itemVec it).length = (itemVec it0).length :=
        fun it hit => (hd it hit).trans h0.symm
      simp only [weighted_average_fusion]
      rw [if_pos hcond, h0]
  · intro c hc
    apply weighted_average_congr
    · rw [List.map_map]
      rfl
    · rw [List.map_map, totalWeight_map_scale]
      refine List.map_congr_left ?_
      intro it hit
      show c * itemWeight it / (c * totalWeight items) =
        itemWeight it / totalWeight items
      exact mul_div_mul_left _ _ (ne_of_gt hc)

/-- Witness for C1: two unit vectors with weights scaled by 2 fuse to
the same output as with weights 1. -/
theorem weighted_average_renormalizes_witness :
    weighted_average_fusion
      (([(.text, [1, 0], 1), (.image, [0, 1], 1)] :
        List FusionItem).map (fun it =>
          (it.1, itemVec it, 2 * itemWeight it))) =
      weighted_average_fusion
        [(.text, [1, 0], 1), (.image, [0, 1], 1)] :=
  (weighted_average_renormalizes _ 2 (by simp)
    (by
      intro it hit
      rcases List.mem_cons.mp hit with h | h
      · rw [h]; rfl
      · rcases List.mem_cons.mp h with h2 | h2
        · rw [h2]; rfl
        · cases h2)
    (by
      intro it hit
      rcases List.mem_cons.mp hit with h | h
      · rw [h]; exact zero_le_one
      · rcases List.mem_cons.mp h with h2 | h2
        · rw [h2]; exact zero_le_one
        · cases h2)
    ⟨(.text, [1, 0], 1), List.mem_cons_self _ _, one_pos⟩).2 2 two_pos

/-- C7: with padding enabled, Concatenation returns the blocks of the
full registered modality list — each absent modality contributing the
zero vector of its expected dimension — and the output dimension is the
sum of the configured expected dimensions over the whole registry,
whatever subset of modalities is present. -/
theorem concatenate_zero_padding (cfg : EngineConfig)
    (items : List FusionItem) (hpad : cfg.padMissing = true)
    (hdim : ∀ it ∈ items, (itemVec it).length = cfg.expectedDim it.1) :
    concatenate_fusion cfg items =
      .ok ((modalityOrder.map (fun m =>
        match items.find? (fun it => decide (it.1 = m)) with
        | some it => itemVec it
        | none => vecZero (cfg.expectedDim m))).flatten) ∧
    ((modalityOrder.map (fun m =>
        match items.find? (fun it => decide (it.1 = m)) with
        | some it => itemVec it
        | none => vecZero (cfg.expectedDim m))).flatten).length =
      (modalityOrder.map cfg.expectedDim).sum := by
  constructor
  · unfold concatenate_fusion
    have hmap : modalityOrder.map (fun m =>
        match items.find? (fun it => decide (it.1 = m)) with
        | some it => itemVec it
        | none =>
          if cfg.padMissing = true then vecZero (cfg.expectedDim m)
          else []) =
        modalityOrder.map (fun m =>
          match items.find? (fun it => decide (it.1 = m)) with
          | some it => itemVec it
          | none => vecZero (cfg.expectedDim m)) := by
      refine List.map_congr_left ?_
      intro m hm
      rw [hpad]
      cases items.find? (fun it => decide (it.1 = m)) with
      | some it => rfl
      | none => simp
    rw [hmap]
  · rw [List.length_flatten, List.map_map]
    refine congrArg List.sum (List.map_congr_left ?_)
    intro m hm
    show (match items.find? (fun it : FusionItem => decide (it.1 = m)) with
      | some it => itemVec it
      | none => vecZero (cfg.expectedDim m)).length = cfg.expectedDim m
    cases hf : items.find? (fun it : FusionItem => decide (it.1 = m)) with
    | some itf =>
      have hp := @List.find?_some FusionItem
        (fun it : FusionItem => decide (it.1 = m)) itf items hf
      have hm2 : itf.1 = m := of_decide_eq_true hp
      have hmem : itf ∈ items := List.mem_of_find?_eq_some hf
      rw [hdim itf hmem, hm2]
    | none => exact vecZero_length _

/-- Witness for C7: one 2-dimensional text item, image and audio
absent, concatenates to the full padded dimension. -/
theorem concatenate_zero_padding_witness :
    concatenate_fusion sampleConfig [(.text, [3, 4], 1)] =
      .ok ((modalityOrder.map (fun m =>
        match ([(.text, [3, 4], 1)] : List FusionItem).find?
            (fun it => decide (it.1 = m)) with
        | some it => itemVec it
        | none => vecZero (sampleConfig.expectedDim m))).flatten) ∧
    ((modalityOrder.map (fun m =>
        match ([(.text, [3, 4], 1)] : List FusionItem).find?
            (fun it => decide (it.1 = m)) with
        | some it => itemVec it
        | none => vecZero (sampleConfig.expectedDim m))).flatten).length =
      (modalityOrder.map sampleConfig.expectedDim).sum :=
  concatenate_zero_padding sampleConfig [(.text, [3, 4], 1)] rfl
    (by
      intro it hit
      rcases List.mem_cons.mp hit with h | h
      · rw [h]; rfl
      · cases h)

/-- A sum of squares is non-negative. -/
theorem sumSq_nonneg (v : RVec) : 0 ≤ sumSq v := by
  induction v with
  | nil => simp [sumSq]
  | cons x xs ih =>
    simp only [sumSq, List.map_cons, List.sum_cons] at ih ⊢
    have hx := mul_self_nonneg x
    linarith

/-- A sum of squares vanishes exactly on the all-zero vector. -/
theorem sumSq_eq_zero_iff (v : RVec) : sumSq v = 0 ↔ ∀ x ∈ v, x = 0 := by
  induction v with
  | nil => simp [sumSq]
  | cons x xs ih =>
    have hxs := sumSq_nonneg xs
    simp only [sumSq, List.map_cons, List.sum_cons, List.mem_cons] at ih hxs ⊢
    constructor
    · intro h
      have hx2 := mul_self_nonneg x
      have hx : x * x = 0 := by linarith
      have hrest : (xs.map (fun y => y * y)).sum = 0 := by linarith
      intro y hy
      rcases hy with hy | hy
      · rw [hy]
        exact mul_self_eq_zero.mp hx
      · exact ih.mp hrest y hy
    · intro h
      have hx : x = 0 := h x (Or.inl rfl)
      have hrest := ih.mpr fun y hy => h y (Or.inr hy)
      rw [hx, hrest, mul_zero, add_zero]

/-- Dividing every entry by `c` divides the sum of squares by `c²`. -/
theorem sumSq_map_div (v : RVec) (c : ℝ) :
    sumSq (v.map (fun x => x / c)) = sumSq v / (c * c) := by
  induction v with
  | nil => simp [sumSq]
  | cons x xs ih =>
    simp only [sumSq, List.map_cons, List.map_map, List.sum_cons,
      Function.comp] at ih ⊢
    rw [ih, div_mul_div_comm, add_div]

/-- Rescaling a vector of non-zero norm by its norm yields norm one. -/
theorem l2norm_normalized (v : RVec) (h : sumSq v ≠ 0) :
    l2norm (v.map (fun x => x / l2norm v)) = 1 := by
  have hnn : 0 ≤ sumSq v := sumSq_nonneg v
  unfold l2norm
  rw [sumSq_map_div,
    show Real.sqrt (sumSq v) * Real.sqrt (sumSq v) = sumSq v from
      Real.mul_self_sqrt hnn,
    div_self h, Real.sqrt_one]

/-- C8: on a finite, not-all-zero vector the normalizer succeeds with a
vector of L2 norm 1 (hence within 1e-6 of 1); on an all-zero or
non-finite vector it fails with `DegenerateEmbeddingError`. -/
theorem normalize_unit_or_degenerate (v : List RawVal) :
    (v.all RawVal.isFin = true → ¬ (∀ x ∈ finPart v, x = 0) →
      ∃ w, normalizeEmbedding v = .ok w ∧
        |l2norm w - 1| ≤ 1 / 1000000) ∧
    (v.all RawVal.isFin = false ∨ (∀ x ∈ finPart v, x = 0) →
      normalizeEmbedding v = .error .degenerateEmbeddingError) := by
  constructor
  · intro hfin hnz
    have hs : sumSq (finPart v) ≠ 0 :=
      fun h => hnz ((sumSq_eq_zero_iff _).mp h)
    refine ⟨(finPart v).map (fun x => x / l2norm (finPart v)), ?_, ?_⟩
    · unfold normalizeEmbedding
      rw [hfin]
      simp only [if_true]
      rw [if_neg hs]
    · rw [l2norm_normalized _ hs]
      norm_num
  · intro h
    unfold normalizeEmbedding
    rcases h with h | h
    · simp [h]
    · by_cases hfin : v.all RawVal.isFin
      · have hs : sumSq (finPart v) = 0 := (sumSq_eq_zero_iff _).mpr h
        simp [hfin, hs]
      · simp [hfin]

/-- Witness for C8: the vector (3, 4) normalizes to unit norm, and a
vector with a non-finite entry is rejected. -/
theorem normalize_unit_or_degenerate_witness :
    (∃ w, normalizeEmbedding [.fin 3, .fin 4] = .ok w ∧
      |l2norm w - 1| ≤ 1 / 1000000) ∧
    normalizeEmbedding [.fin 0, .nonfinite] =
      .error .degenerateEmbeddingError :=
  ⟨(normalize_unit_or_degenerate [.fin 3, .fin 4]).1 rfl
    (by
      intro h
      have h3 : (3 : ℝ) = 0 :=
        h 3 (show (3 : ℝ) ∈ [(3 : ℝ), (4 : ℝ)] from List.mem_cons_self _ _)
      norm_num at h3),
    (normalize_unit_or_degenerate [.fin 0, .nonfinite]).2 (Or.inl rfl)⟩

/-- The fused vector of a packaged result is the core pipeline's
output, independently of the stamped time. -/
theorem fuse_map_vector (cfg : EngineConfig) (now : ℕ) (r : FusionRequest) :
    (fuse cfg now r).map FusedResult.vector = fuseCore cfg r := by
  unfold fuse
  cases fuseCore cfg r <;> rfl

/-- C2: the fusion computation is deterministic — two invocations of
`fuse` (cache disabled) on identical requests return identical fused
vectors, whatever the call times. -/
theorem fuse_deterministic (cfg : EngineConfig) (t₁ t₂ : ℕ)
    (r₁ r₂ : FusionRequest) (h : r₁ = r₂) :
    (fuse cfg t₁ r₁).map FusedResult.vector =
      (fuse cfg t₂ r₂).map FusedResult.vector := by
  subst h
  rw [fuse_map_vector, fuse_map_vector]

/-- Witness for C2: two runs on the one-text request at different times
agree. -/
theorem fuse_deterministic_witness :
    (fuse sampleConfig 0 oneTextRequest).map FusedResult.vector =
      (fuse sampleConfig 1 oneTextRequest).map FusedResult.vector :=
  fuse_deterministic sampleConfig 0 1 oneTextRequest oneTextRequest rfl

/-- The normalizer returns a vector or the degenerate-embedding
error. -/
theorem normalizeEmbedding_ok_or (raw : List RawVal) :
    (∃ nv, normalizeEmbedding raw = .ok nv) ∨
      normalizeEmbedding raw = .error .degenerateEmbeddingError := by
  unfold normalizeEmbedding
  by_cases h1 : raw.all RawVal.isFin
  · by_cases h2 : sumSq (finPart raw) = 0
    · right
      simp [h1, h2]
    · left
      exact ⟨(finPart raw).map (fun x => x / l2norm (finPart raw)),
        by simp [h1, h2]⟩
  · right
    simp [h1]

/-- Normalizing a modality list returns items or the
degenerate-embedding error. -/
theorem normalizePresent_ok_or (r : FusionRequest) (ms : List Modality) :
    (∃ l, normalizePresent r ms = .ok l) ∨
      normalizePresent r ms = .error .degenerateEmbeddingError := by
  induction ms with
  | nil => exact Or.inl ⟨[], rfl⟩
  | cons m ms ih =>
    cases he : r.embeddings m with
    | none => simpa [normalizePresent, he] using ih
    | some raw =>
      rcases normalizeEmbedding_ok_or raw with ⟨nv, hnv⟩ | hnv
      · rcases ih with ⟨l, hl⟩ | hl
        · refine Or.inl ⟨(m, nv) :: l, ?_⟩
          simp only [normalizePresent, he, hnv, hl]
          rfl
        · right
          simp only [normalizePresent, he, hnv, hl]
          rfl
      · right
        simp only [normalizePresent, he, hnv]
        rfl

/-- When every listed modality has an embedding, the normalized items
carry exactly those modalities in order. -/
theorem normalizePresent_fst (r : FusionRequest) :
    ∀ ms : List Modality, (∀ m ∈ ms, (r.embeddings m).isSome) →
      ∀ l, normalizePresent r ms = .ok l → l.map Prod.fst = ms := by
  intro ms
  induction ms with
  | nil =>
    intro _ l hl
    simp only [normalizePresent] at hl
    cases hl
    rfl
  | cons m ms ih =>
    intro h l hl
    have hm : (r.embeddings m).isSome := h m (List.mem_cons_self m ms)
    cases he : r.embeddings m with
    | none => rw [he] at hm; cases hm
    | some raw =>
      simp only [normalizePresent, he] at hl
      cases hnv : normalizeEmbedding raw with
      | error e => rw [hnv] at hl; exact Except.noConfusion hl
      | ok nv =>
        cases hrest : normalizePresent r ms with
        | error e => rw [hnv, hrest] at hl; exact Except.noConfusion hl
        | ok rest =>
          rw [hnv, hrest] at hl
          have hl2 : (Except.ok ((m, nv) :: rest) :
              Except FusionError (List (Modality × RVec))) =
              Except.ok l := hl
          cases hl2
          have hms := ih (fun m2 hm2 => h m2 (List.mem_cons_of_mem m hm2))
            rest hrest
          simp [hms]

/-- Every present modality of a request has an embedding. -/
theorem present_isSome (r : FusionRequest) :
    ∀ m ∈ present r, (r.embeddings m).isSome := by
  intro m hm
  exact (List.mem_filter.mp hm).2

/-- The softmax has as many weights as scores. -/
theorem softmax_length (temp : ℝ) (ss : List ℝ) :
    (softmax temp ss).length = ss.length := by
  simp [softmax]

/-- There is one attention score per vector. -/
theorem attentionScores_length (vs : List RVec) :
    (attentionScores vs).length = vs.length := by
  simp [attentionScores]

/-- On a non-empty input WeightedAverage never reports a validation or
unknown-strategy error. -/
theorem waf_no_validation (items : List FusionItem) (hne : items ≠ []) :
    weighted_average_fusion items ≠ .error .validationError ∧
    weighted_average_fusion items ≠ .error .unknownStrategyError := by
  cases items with
  | nil => exact absurd rfl hne
  | cons a as =>
    simp only [weighted_average_fusion]
    split_ifs with h <;> constructor <;> simp

/-- On a non-empty input AttentionFusion never reports a validation or
unknown-strategy error. -/
theorem attention_no_validation (temp : ℝ) (items : List FusionItem)
    (hne : items ≠ []) :
    attention_fusion temp items ≠ .error .validationError ∧
    attention_fusion temp items ≠ .error .unknownStrategyError := by
  unfold attention_fusion
  apply waf_no_validation
  refine List.length_pos.mp ?_
  rw [List.length_zipWith, softmax_length, attentionScores_length,
    List.length_map, min_self]
  exact List.length_pos.mpr hne

/-- Dispatch on a registered tag with a non-empty input never reports a
validation or unknown-strategy error. -/
theorem dispatch_registered_no_confusion (cfg : EngineConfig)
    (tag : String) (items : List FusionItem)
    (hreg : tag ∈ registeredStrategies) (hne : items ≠ []) :
    dispatchStrategy cfg tag items ≠ .error .validationError ∧
    dispatchStrategy cfg tag items ≠ .error .unknownStrategyError := by
  simp only [registeredStrategies, List.mem_cons,
    List.not_mem_nil, or_false] at hreg
  unfold dispatchStrategy
  rcases hreg with h | h | h
  · rw [if_pos h]
    constructor <;> simp [concatenate_fusion]
  · rw [if_neg (by rw [h]; decide), if_pos h]
    exact waf_no_validation items hne
  · rw [if_neg (by rw [h]; decide), if_neg (by rw [h]; decide), if_pos h]
    exact attention_no_validation cfg.attentionTemp items hne

/-- Dispatch on an unregistered tag reports the unknown-strategy
error. -/
theorem dispatch_unregistered (cfg : EngineConfig) (tag : String)
    (items : List FusionItem) (hreg : tag ∉ registeredStrategies) :
    dispatchStrategy cfg tag items = .error .unknownStrategyError := by
  simp only [registeredStrategies, List.mem_cons, List.not_mem_nil,
    or_false, not_or] at hreg
  unfold dispatchStrategy
  rw [if_neg hreg.1, if_neg hreg.2.1, if_neg hreg.2.2]

/-- `fuse` and the core pipeline fail identically. -/
theorem fuse_error_iff (cfg : EngineConfig) (now : ℕ) (r : FusionRequest)
    (e : FusionError) :
    fuse cfg now r = .error e ↔ fuseCore cfg r = .error e := by
  unfold fuse
  cases fuseCore cfg r <;> simp [Except.map]

/-- C4 (amended): `fuse` reports `ValidationError` exactly on
structurally malformed requests (empty mapping or ill-formed weights),
and reports `UnknownStrategyError` exactly on structurally well-formed
requests naming an unregistered strategy tag. -/
theorem fuse_error_taxonomy (cfg : EngineConfig) (now : ℕ)
    (r : FusionRequest) :
    (fuse cfg now r = .error .validationError ↔
      (present r = [] ∨ ¬ weightsWellFormed r)) ∧
    (fuse cfg now r = .error .unknownStrategyError ↔
      (present r ≠ [] ∧ weightsWellFormed r ∧
        r.strategy ∉ registeredStrategies)) := by
  rw [fuse_error_iff, fuse_error_iff]
  by_cases h1 : present r = []
  · have hcore : fuseCore cfg r = .error .validationError := by
      unfold fuseCore
      rw [if_pos h1]
    rw [hcore]
    constructor
    · exact iff_of_true rfl (Or.inl h1)
    · exact iff_of_false (by simp) (by tauto)
  · by_cases h2 : weightsWellFormed r
    · by_cases h3 : r.strategy ∈ registeredStrategies
      · have hsome := present_isSome r
        rcases normalizePresent_ok_or r (present r) with ⟨l, hl⟩ | hl
        · have hfst := normalizePresent_fst r (present r) hsome l hl
          have hlne : l ≠ [] := by
            intro heq
            rw [heq] at hfst
            exact h1 hfst.symm
          have hane : attachWeights r l ≠ [] := by
            intro heq
            unfold attachWeights at heq
            exact hlne (List.map_eq_nil_iff.mp heq)
          have hd := dispatch_registered_no_confusion cfg r.strategy
            (attachWeights r l) h3 hane
          have hcore : fuseCore cfg r =
              dispatchStrategy cfg r.strategy (attachWeights r l) := by
            unfold fuseCore
            rw [if_neg h1, if_neg (not_not_intro h2),
              if_neg (not_not_intro h3), hl]
            rfl
          rw [hcore]
          constructor
          · exact iff_of_false hd.1 (by tauto)
          · exact iff_of_false hd.2 (by tauto)
        · have hcore : fuseCore cfg r =
              .error .degenerateEmbeddingError := by
            unfold fuseCore
            rw [if_neg h1, if_neg (not_not_intro h2),
              if_neg (not_not_intro h3), hl]
            rfl
          rw [hcore]
          constructor
          · exact iff_of_false (by simp) (by tauto)
          · exact iff_of_false (by simp) (by tauto)
      · have hcore : fuseCore cfg r = .error .unknownStrategyError := by
          unfold fuseCore
          rw [if_neg h1, if_neg (not_not_intro h2), if_pos h3]
        rw [hcore]
        constructor
        · exact iff_of_false (by simp) (by tauto)
        · exact iff_of_true rfl ⟨h1, h2, h3⟩
    · have hcore : fuseCore cfg r = .error .validationError := by
        unfold fuseCore
        rw [if_neg h1, if_pos h2]
      rw [hcore]
      constructor
      · exact iff_of_true rfl (Or.inr h2)
      · exact iff_of_false (by simp) (by tauto)

/-- Counterexample to C4 as stated: a request that both has an empty
modality mapping and names an unregistered strategy tag fails with
`ValidationError`, not `UnknownStrategyError` — so "raises
`UnknownStrategyError` if and only if the tag is unregistered" does not
hold. -/
theorem fuse_unknown_tag_misreported :
    emptyUnknownRequest.strategy ∉ registeredStrategies ∧
    fuse sampleConfig 0 emptyUnknownRequest = .error .validationError ∧
    fuse sampleConfig 0 emptyUnknownRequest ≠
      .error .unknownStrategyError := by
  have hp : present emptyUnknownRequest = [] := rfl
  have hcore : fuseCore sampleConfig emptyUnknownRequest =
      .error .validationError := by
    unfold fuseCore
    rw [if_pos hp]
  refine ⟨by decide, ?_, ?_⟩
  · rw [fuse_error_iff]
    exact hcore
  · intro hcontra
    rw [fuse_error_iff, hcore] at hcontra
    simp at hcontra

/-- The tag-vector pairs of a weighted item list do not depend on the
request's weights. -/
theorem attachWeights_pairs (r : FusionRequest)
    (l : List (Modality × RVec)) :
    (attachWeights r l).map (fun it => (it.1, itemVec it)) =
      l.map (fun p => (p.1, p.2)) := by
  unfold attachWeights
  rw [List.map_map]
  rfl

/-- The weight total of attached items is the weight sum over the item
modalities. -/
theorem totalWeight_attach (r : FusionRequest)
    (l : List (Modality × RVec)) :
    totalWeight (attachWeights r l) =
      ((l.map Prod.fst).map (getWeight r)).sum := by
  unfold totalWeight attachWeights
  rw [List.map_map, List.map_map]
  rfl

/-- Normalization of a modality list depends only on the embeddings of
those modalities. -/
theorem normalizePresent_congr (r r2 : FusionRequest)
    (ms : List Modality)
    (hag : ∀ m ∈ ms, r.embeddings m = r2.embeddings m) :
    normalizePresent r ms = normalizePresent r2 ms := by
  induction ms with
  | nil => rfl
  | cons m ms ih =>
    have hm := hag m (List.mem_cons_self m ms)
    have ihe := ih fun m2 hm2 => hag m2 (List.mem_cons_of_mem m hm2)
    simp only [normalizePresent]
    rw [← hm]
    cases r.embeddings m with
    | none => exact ihe
    | some raw => rw [ihe]

/-- Attaching weights and then replacing them with computed attention
weights erases the request dependence. -/
theorem attach_zip_weights (r : FusionRequest)
    (l : List (Modality × RVec)) (ws : List ℝ) :
    List.zipWith (fun (it : FusionItem) w => (it.1, itemVec it, w))
      (attachWeights r l) ws =
    List.zipWith (fun (p : Modality × RVec) w => (p.1, p.2, w)) l ws := by
  unfold attachWeights
  rw [List.zipWith_map_left]
  rfl

/-- The vectors of attached items are the normalized vectors. -/
theorem attach_map_itemVec (r : FusionRequest)
    (l : List (Modality × RVec)) :
    (attachWeights r l).map itemVec = l.map (fun p => p.2) := by
  unfold attachWeights
  rw [List.map_map]
  rfl

/-- Strategy dispatch is unchanged when the attached weights change
but the renormalized weights agree pointwise. -/
theorem dispatch_attach_congr (cfg : EngineConfig) (tag : String)
    (r r2 : FusionRequest) (l : List (Modality × RVec))
    (hwpt : ∀ p ∈ l,
      getWeight r p.1 / totalWeight (attachWeights r l) =
        getWeight r2 p.1 / totalWeight (attachWeights r2 l)) :
    dispatchStrategy cfg tag (attachWeights r l) =
      dispatchStrategy cfg tag (attachWeights r2 l) := by
  have hpairs : (attachWeights r l).map (fun it => (it.1, itemVec it)) =
      (attachWeights r2 l).map (fun it => (it.1, itemVec it)) := by
    rw [attachWeights_pairs, attachWeights_pairs]
  have hwaf : weighted_average_fusion (attachWeights r l) =
      weighted_average_fusion (attachWeights r2 l) := by
    apply weighted_average_congr _ _ hpairs
    unfold attachWeights
    rw [List.map_map, List.map_map]
    refine List.map_congr_left ?_
    intro p hp
    exact hwpt p hp
  have hcat : concatenate_fusion cfg (attachWeights r l) =
      concatenate_fusion cfg (attachWeights r2 l) := by
    unfold concatenate_fusion
    have hblocks : ∀ m : Modality,
        (match (attachWeights r l).find?
            (fun it => decide (it.1 = m)) with
        | some it => itemVec it
        | none =>
          if cfg.padMissing = true then vecZero (cfg.expectedDim m)
          else []) =
        (match (attachWeights r2 l).find?
            (fun it => decide (it.1 = m)) with
        | some it => itemVec it
        | none =>
          if cfg.padMissing = true then vecZero (cfg.expectedDim m)
          else []) := by
      intro m
      unfold attachWeights
      rw [List.find?_map, List.find?_map]
      have hpred : ∀ r3 : FusionRequest,
          List.find? ((fun it : FusionItem => decide (it.1 = m)) ∘
            (fun p : Modality × RVec => (p.1, p.2, getWeight r3 p.1))) l =
          List.find? (fun p : Modality × RVec => decide (p.1 = m)) l :=
        fun r3 => rfl
      rw [hpred r, hpred r2]
      cases l.find? (fun p : Modality × RVec => decide (p.1 = m)) with
      | none => rfl
      | some p => rfl
    rw [List.map_congr_left fun m _ => hblocks m]
  have hatt : attention_fusion cfg.attentionTemp (attachWeights r l) =
      attention_fusion cfg.attentionTemp (attachWeights r2 l) := by
    unfold attention_fusion
    rw [attach_zip_weights, attach_zip_weights, attach_map_itemVec,
      attach_map_itemVec]
  unfold dispatchStrategy
  split_ifs with hx hy hz
  · exact hcat
  · exact hwaf
  · exact hatt
  · rfl

/-- Two valid requests with one cache key have one core-pipeline
outcome: the key's content (present tags, raw vectors, strategy tag,
normalized weights) determines the fused vector. -/
theorem fuseCore_key_congr (cfg : EngineConfig) (r r2 : FusionRequest)
    (h : ValidRequest r) (h2 : ValidRequest r2)
    (hk : requestKey r = requestKey r2) :
    fuseCore cfg r = fuseCore cfg r2 := by
  have hpres : present r = present r2 :=
    congrArg (fun k : CacheKey => k.1) hk
  have hvecs : (present r).map (fun m => (r.embeddings m).getD []) =
      (present r2).map (fun m => (r2.embeddings m).getD []) :=
    congrArg (fun k : CacheKey => k.2.1) hk
  have hstrat : r.strategy = r2.strategy :=
    congrArg (fun k : CacheKey => k.2.2.1) hk
  have hnw : normWeightVals r = normWeightVals r2 :=
    congrArg (fun k : CacheKey => k.2.2.2) hk
  have hag : ∀ m ∈ present r, r.embeddings m = r2.embeddings m := by
    intro m hm
    have hm2 : m ∈ present r2 := hpres ▸ hm
    have h1s := present_isSome r m hm
    have h2s := present_isSome r2 m hm2
    rw [hpres] at hvecs
    have hfg := List.map_inj_left.mp hvecs m hm2
    cases he1 : r.embeddings m with
    | none => rw [he1] at h1s; cases h1s
    | some v1 =>
      cases he2 : r2.embeddings m with
      | none => rw [he2] at h2s; cases h2s
      | some v2 =>
        rw [he1, he2] at hfg
        simp only [Option.getD_some] at hfg
        rw [hfg]
  have hnp : normalizePresent r (present r) =
      normalizePresent r2 (present r2) := by
    rw [← hpres]
    exact normalizePresent_congr r r2 (present r) hag
  unfold fuseCore
  rw [if_neg h.1, if_neg (not_not_intro h.2.1),
    if_neg (not_not_intro h.2.2), if_neg h2.1,
    if_neg (not_not_intro h2.2.1), if_neg (not_not_intro h2.2.2),
    ← hnp, ← hstrat]
  cases hnl : normalizePresent r (present r) with
  | error e => rfl
  | ok l =>
    show dispatchStrategy cfg r.strategy (attachWeights r l) =
      dispatchStrategy cfg r.strategy (attachWeights r2 l)
    apply dispatch_attach_congr
    intro p hp
    have hfst := normalizePresent_fst r (present r) (present_isSome r)
      l hnl
    have hpm : p.1 ∈ present r := by
      rw [← hfst]
      exact List.mem_map_of_mem Prod.fst hp
    have hT1 : totalWeight (attachWeights r l) =
        ((present r).map (getWeight r)).sum := by
      rw [totalWeight_attach, hfst]
    have hT2 : totalWeight (attachWeights r2 l) =
        ((present r2).map (getWeight r2)).sum := by
      rw [totalWeight_attach, hfst, hpres]
    rw [hT1, hT2, ← hpres]
    unfold normWeightVals at hnw
    rw [← hpres] at hnw
    exact List.map_inj_left.mp hnw p.1 hpm

/-- A successful lookup comes from an entry with the looked-up key. -/
theorem lookupEntry_mem (k : CacheKey) (c : CacheEntries)
    (res : FusedResult) (h : lookupEntry k c = some res) :
    ∃ e ∈ c, e.1 = k ∧ e.2 = res := by
  induction c with
  | nil => cases h
  | cons e es ih =>
    unfold lookupEntry at h
    by_cases he : e.1 = k
    · rw [if_pos he] at h
      exact ⟨e, List.mem_cons_self e es, he, Option.some.inj h⟩
    · rw [if_neg he] at h
      rcases ih h with ⟨e2, hmem, hk2, hr⟩
      exact ⟨e2, List.mem_cons_of_mem e hmem, hk2, hr⟩

/-- Erasing a key keeps only entries of the original cache. -/
theorem mem_eraseKey (k : CacheKey) (c : CacheEntries)
    (e : CacheKey × FusedResult) (h : e ∈ eraseKey k c) : e ∈ c := by
  induction c with
  | nil => cases h
  | cons e2 es ih =>
    unfold eraseKey at h
    by_cases he : e2.1 = k
    · rw [if_pos he] at h
      exact List.mem_cons_of_mem e2 (ih h)
    · rw [if_neg he] at h
      rcases List.mem_cons.mp h with h2 | h2
      · rw [h2]
        exact List.mem_cons_self e2 es
      · exact List.mem_cons_of_mem e2 (ih h2)

/-- A successful `fuse` call carries the core pipeline's vector. -/
theorem fuse_ok_vector (cfg : EngineConfig) (now : ℕ) (r : FusionRequest)
    (res : FusedResult) (h : fuse cfg now r = .ok res) :
    fuseCore cfg r = .ok res.vector := by
  unfold fuse at h
  cases hc : fuseCore cfg r with
  | error e => rw [hc] at h; cases h
  | ok out =>
    rw [hc] at h
    have h2 : (Except.ok
        { vector := out
          modalities := present r
          strategy := r.strategy
          dimension := out.length
          timestamp := now } : Except FusionError FusedResult) =
        Except.ok res := h
    cases h2
    rfl

/-- C3: with a consistent cache, `fuse` with caching enabled returns
the same fused vector as `fuse` with the cache disabled, and leaves the
cache consistent — the cache changes latency, never the value. -/
theorem fuseCached_preserves_value (cfg : EngineConfig) (cap now : ℕ)
    (c : CacheEntries) (r : FusionRequest)
    (hc : CacheConsistent cfg c) :
    (fuseCached cfg cap now c r).1.map FusedResult.vector =
      (fuse cfg now r).map FusedResult.vector ∧
    CacheConsistent cfg (fuseCached cfg cap now c r).2 := by
  unfold fuseCached
  by_cases h1 : present r = []
  · rw [if_pos h1]
    have hcore : fuseCore cfg r = .error .validationError := by
      unfold fuseCore
      rw [if_pos h1]
    constructor
    · rw [fuse_map_vector, hcore]
      rfl
    · exact hc
  · rw [if_neg h1]
    by_cases h2 : weightsWellFormed r
    · rw [if_neg (not_not_intro h2)]
      by_cases h3 : r.strategy ∈ registeredStrategies
      · rw [if_neg (not_not_intro h3)]
        have hvr : ValidRequest r := ⟨h1, h2, h3⟩
        cases hlook : lookupEntry (requestKey r) c with
        | some res =>
          rcases lookupEntry_mem _ _ _ hlook with ⟨e, hmem, hek, her⟩
          have hfc : fuseCore cfg r = .ok e.2.vector :=
            hc e hmem r hvr hek.symm
          constructor
          · rw [fuse_map_vector, hfc, ← her]
            rfl
          · intro e2 hmem2 r2 hvr2 hk2
            rcases List.mem_cons.mp hmem2 with he2 | he2
            · subst he2
              have hcg := fuseCore_key_congr cfg r2 r hvr2 hvr hk2
              rw [hcg, hfc, her]
            · exact hc e2 (mem_eraseKey _ _ _ he2) r2 hvr2 hk2
        | none =>
          cases hf : fuse cfg now r with
          | ok res =>
            constructor
            · rfl
            · intro e2 hmem2 r2 hvr2 hk2
              unfold putEntry at hmem2
              have hme := List.take_subset _ _ hmem2
              rcases List.mem_cons.mp hme with he2 | he2
              · subst he2
                have hfc : fuseCore cfg r = .ok res.vector :=
                  fuse_ok_vector cfg now r res hf
                have hcg := fuseCore_key_congr cfg r2 r hvr2 hvr hk2
                rw [hcg, hfc]
              · exact hc e2 (mem_eraseKey _ _ _ he2) r2 hvr2 hk2
          | error e =>
            constructor
            · rfl
            · exact hc
      · rw [if_pos h3]
        have hcore : fuseCore cfg r = .error .unknownStrategyError := by
          unfold fuseCore
          rw [if_neg h1, if_neg (not_not_intro h2), if_pos h3]
        constructor
        · rw [fuse_map_vector, hcore]
          rfl
        · exact hc
    · rw [if_pos h2]
      have hcore : fuseCore cfg r = .error .validationError := by
        unfold fuseCore
        rw [if_neg h1, if_pos h2]
      constructor
      · rw [fuse_map_vector, hcore]
        rfl
      · exact hc

/-- Witness for C3: starting from the empty (trivially consistent)
cache, the cached fuse of the one-text request returns the uncached
value and leaves a consistent cache. -/
theorem fuseCached_preserves_value_witness :
    (fuseCached sampleConfig 10 0 [] oneTextRequest).1.map
        FusedResult.vector =
      (fuse sampleConfig 0 oneTextRequest).map FusedResult.vector ∧
    CacheConsistent sampleConfig
      (fuseCached sampleConfig 10 0 [] oneTextRequest).2 :=
  fuseCached_preserves_value sampleConfig 10 0 [] oneTextRequest
    (by intro e he; exact absurd he (List.not_mem_nil e))
